import Mathlib

/-!
Verification development for the entropy diffusion simulator
(src/entropy/src/main.rs).

The grid holds `f64` energies in the source; here the arithmetic is
idealized as exact rational arithmetic (the spec reads "exact in real
arithmetic"), so a grid is a total function `ℕ → ℕ → ℚ` of which only the
indices below the configured height and width are meaningful.  The
thread-local random generator is replaced by explicit parameters: the step
takes a family `W` of weight matrices (one per source cell, each fresh per
step, as `probability_mat` is called once per cell), `probability_mat`
takes the raw uniform draws it normalizes, and `init_board` takes the
stream of proposed coordinates of its rejection-sampling loop together
with a fuel bound (the source's `while` loop has no bound; `none` below
means the loop has not finished within the given fuel).
-/

namespace Entropy

/-- A 2D array of rationals, indexed row first, as `ndarray::Array2<f64>`. -/
abbrev Grid := ℕ → ℕ → ℚ

/-- A (patch-sized) weight matrix; only the indices below the patch shape
`(a, b)` are meaningful. -/
abbrev PMat := ℕ → ℕ → ℚ

/-- The configuration record parsed from config.json (main.rs lines 9-16). -/
structure Config where
  dims : ℕ × ℕ
  hotspots : ℕ
  sleep_interval_ms : ℕ
  heat : ℚ
  size_factor : ℕ

/-- Sum of the leading `a × b` block of a weight matrix. -/
def psum (a b : ℕ) (p : PMat) : ℚ :=
  ∑ i ∈ Finset.range a, ∑ j ∈ Finset.range b, p i j

/-- Sum over all cells of an `h × w` grid. -/
def gsum (h w : ℕ) (g : Grid) : ℚ :=
  ∑ i ∈ Finset.range h, ∑ j ∈ Finset.range w, g i j

/-- `probability_mat` (main.rs lines 158-173): an `a × b` matrix of uniform
draws, divided entrywise by the accumulated sum `s` of all the draws.  The
draws are the explicit argument `d`; no check that `s` is nonzero is made,
exactly as in the source. -/
def probability_mat (a b : ℕ) (d : PMat) : PMat :=
  fun i j => d i j / psum a b d

/-- One `slice += energy * probability_mat(..)` statement of
`board_time_step`: add `e`-scaled weights onto the `a × b` patch of `g`
whose top-left corner is `(r0, c0)`. -/
def addPatch (g : Grid) (r0 c0 a b : ℕ) (e : ℚ) (p : PMat) : Grid :=
  fun i j =>
    if (r0 ≤ i ∧ i < r0 + a) ∧ (c0 ≤ j ∧ j < c0 + b) then
      g i j + e * p (i - r0) (j - c0)
    else g i j

/-- The corner updates of `board_time_step` (main.rs lines 63-79): the four
2×2 corner slices, in source order top-left, top-right, bottom-left,
bottom-right, fed by the four corner energies of the lagged board. -/
def cornerPass (h w : ℕ) (lag : Grid) (W : ℕ → ℕ → PMat) (g : Grid) : Grid :=
  addPatch
    (addPatch
      (addPatch
        (addPatch g 0 0 2 2 (lag 0 0) (W 0 0))
        0 (w - 2) 2 2 (lag 0 (w - 1)) (W 0 (w - 1)))
      (h - 2) 0 2 2 (lag (h - 1) 0) (W (h - 1) 0))
    (h - 2) (w - 2) 2 2 (lag (h - 1) (w - 1)) (W (h - 1) (w - 1))

/-- The top-border loop of `board_time_step` (main.rs lines 82-86):
`for j in 1..w-1`, slice `[0..2, j-1..=j+1]` gets `lagged[[0, j]]` spread
over a 2×3 weight matrix. -/
def topPass (w : ℕ) (lag : Grid) (W : ℕ → ℕ → PMat) (g : Grid) : Grid :=
  (List.range' 1 (w - 2)).foldl
    (fun g j => addPatch g 0 (j - 1) 2 3 (lag 0 j) (W 0 j)) g

/-- The bottom-border loop of `board_time_step` (main.rs lines 87-91):
`for j in 1..w-1`, slice `[h-2..h, j-1..=j+1]` gets `lagged[[h-1, j]]`. -/
def botPass (h w : ℕ) (lag : Grid) (W : ℕ → ℕ → PMat) (g : Grid) : Grid :=
  (List.range' 1 (w - 2)).foldl
    (fun g j => addPatch g (h - 2) (j - 1) 2 3 (lag (h - 1) j) (W (h - 1) j)) g

/-- The body of the interior-row loop of `board_time_step` (main.rs lines
94-111) for one row `i`: the leftmost 3×2 slice `[i-1..=i+1, 0..2]`, then
`for j in 1..w-1` the centered 3×3 slices, then the rightmost slice, which
the source writes as `s![i-1..=i+1, h-2..h]` — columns `h-2..h`, with `h`
where the mirror of the leftmost case would use `w` (line 108) — fed by the
energy `lagged[[i, w-1]]` of the rightmost column. -/
def rowPass (h w : ℕ) (lag : Grid) (W : ℕ → ℕ → PMat) (g : Grid) (i : ℕ) : Grid :=
  addPatch
    ((List.range' 1 (w - 2)).foldl
      (fun g j => addPatch g (i - 1) (j - 1) 3 3 (lag i j) (W i j))
      (addPatch g (i - 1) 0 3 2 (lag i 0) (W i 0)))
    (i - 1) (h - 2) 3 2 (lag i (w - 1)) (W i (w - 1))

/-- `board_time_step` (main.rs lines 55-116).  `board` is the working
buffer the slice updates accumulate into and `lagged_board` the grid read;
at the end the source does `lagged_board.clone_from(board)` then
`board.fill(0.0)`, so the returned pair is
(new working board, new lagged board) = (all zeros, the accumulated grid). -/
def board_time_step (board lagged_board : Grid) (config : Config)
    (W : ℕ → ℕ → PMat) : Grid × Grid :=
  let h := config.dims.1
  let w := config.dims.2
  let acc :=
    (List.range' 1 (h - 2)).foldl (rowPass h w lagged_board W)
      (botPass h w lagged_board W
        (topPass w lagged_board W
          (cornerPass h w lagged_board W board)))
  (fun _ _ => 0, acc)

/-- One slice update of `board_time_step` in flattened form: the patch
rectangle (top-left `(r0, c0)`, shape `a × b`) and the source cell
`(si, sj)` whose lagged energy is spread into it. -/
structure Rect where
  r0 : ℕ
  c0 : ℕ
  a : ℕ
  b : ℕ
  si : ℕ
  sj : ℕ
deriving DecidableEq

/-- Apply one flattened slice update to the working grid. -/
def applyRect (lag : Grid) (W : ℕ → ℕ → PMat) (g : Grid) (r : Rect) : Grid :=
  addPatch g r.r0 r.c0 r.a r.b (lag r.si r.sj) (W r.si r.sj)

/-- The four corner slice updates as rectangles. -/
def cornerRects (h w : ℕ) : List Rect :=
  [⟨0, 0, 2, 2, 0, 0⟩, ⟨0, w - 2, 2, 2, 0, w - 1⟩,
   ⟨h - 2, 0, 2, 2, h - 1, 0⟩, ⟨h - 2, w - 2, 2, 2, h - 1, w - 1⟩]

/-- The top-border slice updates as rectangles. -/
def topRects (w : ℕ) : List Rect :=
  (List.range' 1 (w - 2)).map fun j => ⟨0, j - 1, 2, 3, 0, j⟩

/-- The bottom-border slice updates as rectangles. -/
def botRects (h w : ℕ) : List Rect :=
  (List.range' 1 (w - 2)).map fun j => ⟨h - 2, j - 1, 2, 3, h - 1, j⟩

/-- The slice updates of one interior row as rectangles; the last one
keeps the source's `h - 2` column anchor of line 108. -/
def rowRects (h w i : ℕ) : List Rect :=
  ⟨i - 1, 0, 3, 2, i, 0⟩ ::
    ((List.range' 1 (w - 2)).map fun j => ⟨i - 1, j - 1, 3, 3, i, j⟩) ++
      [⟨i - 1, h - 2, 3, 2, i, w - 1⟩]

/-- Every slice update `board_time_step` performs, in source order. -/
def stepRects (h w : ℕ) : List Rect :=
  cornerRects h w ++ topRects w ++ botRects h w ++
    (List.range' 1 (h - 2)).flatMap (rowRects h w)

lemma foldl_flatMap {α β γ : Type} (l : List α) (f : α → List β)
    (op : γ → β → γ) (x : γ) :
    (l.flatMap f).foldl op x = l.foldl (fun x a => (f a).foldl op x) x := by
  induction l generalizing x with
  | nil => rfl
  | cons a t ih => simp [List.flatMap_cons, List.foldl_append, ih]

lemma corner_fold (h w : ℕ) (lag : Grid) (W : ℕ → ℕ → PMat) (g : Grid) :
    (cornerRects h w).foldl (applyRect lag W) g = cornerPass h w lag W g := rfl

lemma top_fold (w : ℕ) (lag : Grid) (W : ℕ → ℕ → PMat) (g : Grid) :
    (topRects w).foldl (applyRect lag W) g = topPass w lag W g := by
  rw [topRects, List.foldl_map]; rfl

lemma bot_fold (h w : ℕ) (lag : Grid) (W : ℕ → ℕ → PMat) (g : Grid) :
    (botRects h w).foldl (applyRect lag W) g = botPass h w lag W g := by
  rw [botRects, List.foldl_map]; rfl

lemma row_fold (h w i : ℕ) (lag : Grid) (W : ℕ → ℕ → PMat) (g : Grid) :
    (rowRects h w i).foldl (applyRect lag W) g = rowPass h w lag W g i := by
  rw [rowRects]
  simp only [List.foldl_cons, List.foldl_append, List.foldl_map]
  rfl

/-- The accumulated working grid of `board_time_step` is the fold of all
its slice updates, flattened into the single list `stepRects`. -/
lemma step_snd (board lag : Grid) (config : Config) (W : ℕ → ℕ → PMat) :
    (board_time_step board lag config W).2 =
      (stepRects config.dims.1 config.dims.2).foldl (applyRect lag W) board := by
  have hrow : (fun g i => (rowRects config.dims.1 config.dims.2 i).foldl
      (applyRect lag W) g) = rowPass config.dims.1 config.dims.2 lag W :=
    funext fun g => funext fun i => row_fold _ _ _ _ _ _
  rw [board_time_step, stepRects, List.foldl_append, List.foldl_append,
    List.foldl_append, corner_fold, top_fold, bot_fold, foldl_flatMap, hrow]

/-- The new working grid of `board_time_step` is all zeros
(`board.fill(0.0)`, main.rs line 115). -/
lemma step_fst (board lag : Grid) (config : Config) (W : ℕ → ℕ → PMat) :
    (board_time_step board lag config W).1 = fun _ _ => 0 := rfl

lemma sum_ite_interval (N m n : ℕ) (q : ℕ → ℚ) (hmn : m + n ≤ N) :
    (∑ x ∈ Finset.range N, if m ≤ x ∧ x < m + n then q (x - m) else 0) =
      ∑ y ∈ Finset.range n, q y := by
  rw [Finset.range_eq_Ico,
    ← Finset.sum_Ico_consecutive _ (Nat.zero_le (m + n)) hmn,
    ← Finset.sum_Ico_consecutive _ (Nat.zero_le m) (Nat.le_add_right m n)]
  have h1 : (∑ x ∈ Finset.Ico 0 m, if m ≤ x ∧ x < m + n then q (x - m) else 0)
      = 0 := by
    apply Finset.sum_eq_zero
    intro x hx
    rw [Finset.mem_Ico] at hx
    have : ¬(m ≤ x ∧ x < m + n) := by omega
    simp [this]
  have h3 : (∑ x ∈ Finset.Ico (m + n) N, if m ≤ x ∧ x < m + n then q (x - m) else 0)
      = 0 := by
    apply Finset.sum_eq_zero
    intro x hx
    rw [Finset.mem_Ico] at hx
    have : ¬(m ≤ x ∧ x < m + n) := by omega
    simp [this]
  have h2 : (∑ x ∈ Finset.Ico m (m + n), if m ≤ x ∧ x < m + n then q (x - m) else 0)
      = ∑ y ∈ Finset.range n, q y := by
    rw [Finset.sum_Ico_eq_sum_range]
    simp only [Nat.add_sub_cancel_left]
    apply Finset.sum_congr rfl
    intro y hy
    rw [Finset.mem_range] at hy
    have : m ≤ m + y ∧ m + y < m + n := ⟨Nat.le_add_right _ _, by omega⟩
    simp [this]
  rw [h1, h2, h3, Finset.range_eq_Ico]
  ring

lemma addPatch_apply (g : Grid) (r0 c0 a b : ℕ) (e : ℚ) (p : PMat) (i j : ℕ) :
    addPatch g r0 c0 a b e p i j =
      g i j + (if (r0 ≤ i ∧ i < r0 + a) ∧ (c0 ≤ j ∧ j < c0 + b)
        then e * p (i - r0) (j - c0) else 0) := by
  rw [addPatch]
  split <;> simp

/-- One slice update adds exactly `energy * (sum of its weight matrix)` to
the total of the working grid, provided the patch is inside the grid. -/
lemma gsum_addPatch (h w : ℕ) (g : Grid) (r0 c0 a b : ℕ) (e : ℚ) (p : PMat)
    (hr : r0 + a ≤ h) (hc : c0 + b ≤ w) :
    gsum h w (addPatch g r0 c0 a b e p) = gsum h w g + e * psum a b p := by
  have expand : gsum h w (addPatch g r0 c0 a b e p)
      = gsum h w g + ∑ i ∈ Finset.range h, ∑ j ∈ Finset.range w,
          (if (r0 ≤ i ∧ i < r0 + a) ∧ (c0 ≤ j ∧ j < c0 + b)
            then e * p (i - r0) (j - c0) else 0) := by
    rw [gsum, gsum, ← Finset.sum_add_distrib]
    apply Finset.sum_congr rfl
    intro i _
    rw [← Finset.sum_add_distrib]
    apply Finset.sum_congr rfl
    intro j _
    exact addPatch_apply g r0 c0 a b e p i j
  rw [expand]
  congr 1
  have inner : ∀ i : ℕ,
      (∑ j ∈ Finset.range w, if (r0 ≤ i ∧ i < r0 + a) ∧ (c0 ≤ j ∧ j < c0 + b)
        then e * p (i - r0) (j - c0) else 0)
      = (if r0 ≤ i ∧ i < r0 + a
          then e * ∑ y ∈ Finset.range b, p (i - r0) y else 0) := by
    intro i
    by_cases hA : r0 ≤ i ∧ i < r0 + a
    · simp only [hA, true_and, if_true]
      rw [sum_ite_interval w c0 b (fun y => e * p (i - r0) y) hc, Finset.mul_sum]
    · simp [hA]
  calc (∑ i ∈ Finset.range h, ∑ j ∈ Finset.range w,
        if (r0 ≤ i ∧ i < r0 + a) ∧ (c0 ≤ j ∧ j < c0 + b)
          then e * p (i - r0) (j - c0) else 0)
      = ∑ i ∈ Finset.range h, (if r0 ≤ i ∧ i < r0 + a
          then (fun x => e * ∑ y ∈ Finset.range b, p x y) (i - r0) else 0) :=
        Finset.sum_congr rfl fun i _ => inner i
    _ = ∑ x ∈ Finset.range a, e * ∑ y ∈ Finset.range b, p x y := by
        simpa using sum_ite_interval h r0 a
          (fun x => e * ∑ y ∈ Finset.range b, p x y) hr
    _ = e * psum a b p := by rw [psum, ← Finset.mul_sum]

/-- Folding a list of in-bounds slice updates adds the sum of their
`energy * weight-sum` contributions to the total of the working grid. -/
lemma gsum_foldl_rects (h w : ℕ) (lag : Grid) (W : ℕ → ℕ → PMat) :
    ∀ (L : List Rect) (g : Grid),
      (∀ r ∈ L, r.r0 + r.a ≤ h ∧ r.c0 + r.b ≤ w) →
      gsum h w (L.foldl (applyRect lag W) g) =
        gsum h w g +
          (L.map fun r => lag r.si r.sj * psum r.a r.b (W r.si r.sj)).sum := by
  intro L
  induction L with
  | nil => intro g _; simp
  | cons r t ih =>
    intro g hb
    rw [List.foldl_cons, ih _ fun x hx => hb x (List.mem_cons_of_mem _ hx)]
    have hbr := hb r (List.mem_cons_self _ _)
    rw [applyRect, gsum_addPatch h w g _ _ _ _ _ _ hbr.1 hbr.2,
      List.map_cons, List.sum_cons]
    ring

lemma sum_map_range' (s n : ℕ) (f : ℕ → ℚ) :
    ((List.range' s n).map f).sum = ∑ x ∈ Finset.Ico s (s + n), f x := by
  induction n generalizing s with
  | zero => simp
  | succ n ih =>
    have hs : s + 1 + n = s + (n + 1) := by omega
    rw [List.range'_succ, List.map_cons, List.sum_cons, ih (s + 1), hs,
      Finset.sum_eq_sum_Ico_succ_bot (by omega : s < s + (n + 1))]

lemma sum_map_flatMap {α β : Type} (l : List α) (f : α → List β) (q : β → ℚ) :
    ((l.flatMap f).map q).sum = (l.map fun a => ((f a).map q).sum).sum := by
  induction l with
  | nil => rfl
  | cons a t ih => simp [List.flatMap_cons, List.map_append, List.sum_append, ih]

lemma row_block_sum (n : ℕ) (f : ℕ → ℚ) :
    f 0 + ((∑ x ∈ Finset.Ico 1 (1 + n), f x) + f (n + 1)) =
      ∑ x ∈ Finset.range (n + 2), f x := by
  rw [Finset.sum_range_succ, Finset.range_eq_Ico,
    Finset.sum_eq_sum_Ico_succ_bot (by omega : 0 < n + 1)]
  have h1n : 1 + n = n + 1 := by omega
  rw [h1n]
  ring

/-- The source cells of the slice updates enumerate every cell of the grid
exactly once: the energies read by one step sum to the lagged total. -/
lemma stepRects_energy_sum (h w : ℕ) (hh : 2 ≤ h) (hw : 2 ≤ w) (lag : Grid) :
    ((stepRects h w).map fun r => lag r.si r.sj).sum = gsum h w lag := by
  obtain ⟨m, rfl⟩ : ∃ m, h = m + 2 := ⟨h - 2, by omega⟩
  obtain ⟨n, rfl⟩ : ∃ n, w = n + 2 := ⟨w - 2, by omega⟩
  have em : m + 2 - 2 = m := by omega
  have em1 : m + 2 - 1 = m + 1 := by omega
  have en : n + 2 - 2 = n := by omega
  have en1 : n + 2 - 1 = n + 1 := by omega
  simp only [stepRects, cornerRects, topRects, botRects, rowRects, em, em1, en, en1,
    sum_map_flatMap, List.map_append, List.sum_append, List.map_cons, List.sum_cons,
    List.map_map, List.map_nil, List.sum_nil, Function.comp, sum_map_range', add_zero]
  rw [gsum]
  have hrow : ∀ i : ℕ, ∑ j ∈ Finset.range (n + 2), lag i j
      = lag i 0 + ((∑ x ∈ Finset.Ico 1 (1 + n), lag i x) + lag i (n + 1)) :=
    fun i => (row_block_sum n (lag i)).symm
  have houter : ∑ i ∈ Finset.range (m + 2), ∑ j ∈ Finset.range (n + 2), lag i j
      = (∑ j ∈ Finset.range (n + 2), lag 0 j) +
        ((∑ i ∈ Finset.Ico 1 (1 + m), ∑ j ∈ Finset.range (n + 2), lag i j) +
          (∑ j ∈ Finset.range (n + 2), lag (m + 1) j)) :=
    (row_block_sum m fun i => ∑ j ∈ Finset.range (n + 2), lag i j).symm
  rw [houter, hrow 0, hrow (m + 1)]
  have hmid : ∑ i ∈ Finset.Ico 1 (1 + m), ∑ j ∈ Finset.range (n + 2), lag i j
      = ∑ i ∈ Finset.Ico 1 (1 + m),
          (lag i 0 + ((∑ x ∈ Finset.Ico 1 (1 + n), lag i x) + lag i (n + 1))) :=
    Finset.sum_congr rfl fun i _ => hrow i
  rw [hmid]
  simp only [Finset.sum_add_distrib]
  ring

/-- Bounds of every slice update: for `2 ≤ h ≤ w` every patch rectangle
lies inside the `h × w` grid and every source cell is a grid cell.  The
`h ≤ w` hypothesis is what the rightmost-column slice `s![i-1..=i+1,
h-2..h]` of main.rs line 108 needs. -/
lemma stepRects_bounds (h w : ℕ) (hh : 2 ≤ h) (hw : 2 ≤ w) (hhw : h ≤ w) :
    ∀ r ∈ stepRects h w,
      (r.r0 + r.a ≤ h ∧ r.c0 + r.b ≤ w) ∧ r.si < h ∧ r.sj < w := by
  intro r hr
  simp only [stepRects, cornerRects, topRects, botRects, rowRects, List.mem_append,
    List.mem_cons, List.mem_map, List.mem_flatMap, List.mem_singleton,
    List.mem_range'_1, List.not_mem_nil, or_false] at hr
  rcases hr with (((rfl | rfl | rfl | rfl) | ⟨j, hj, rfl⟩) | ⟨j, hj, rfl⟩) |
    ⟨i, hi, (rfl | ⟨j, hj, rfl⟩) | rfl⟩
  · dsimp only; omega
  · dsimp only; omega
  · dsimp only; omega
  · dsimp only; omega
  · dsimp only; omega
  · dsimp only; omega
  · dsimp only; omega
  · dsimp only; omega
  · dsimp only; omega

lemma gsum_eq_zero (h w : ℕ) (g : Grid) (hg : ∀ i j, g i j = 0) :
    gsum h w g = 0 := by
  rw [gsum]
  simp [hg]

/-- Totals of one continuous step: the new lagged total is the old working
total plus the old lagged total, whenever every generated weight matrix
sums to 1 over its shape. -/
lemma gsum_step (config : Config) (board lag : Grid) (W : ℕ → ℕ → PMat)
    (hh : 2 ≤ config.dims.1) (hw : 2 ≤ config.dims.2)
    (hhw : config.dims.1 ≤ config.dims.2)
    (hW : ∀ r ∈ stepRects config.dims.1 config.dims.2,
      psum r.a r.b (W r.si r.sj) = 1) :
    gsum config.dims.1 config.dims.2 (board_time_step board lag config W).2 =
      gsum config.dims.1 config.dims.2 board +
        gsum config.dims.1 config.dims.2 lag := by
  rw [step_snd,
    gsum_foldl_rects config.dims.1 config.dims.2 lag W _ board
      (fun r hr => (stepRects_bounds _ _ hh hw hhw r hr).1)]
  congr 1
  have hmaps : ((stepRects config.dims.1 config.dims.2).map
        fun r => lag r.si r.sj * psum r.a r.b (W r.si r.sj))
      = (stepRects config.dims.1 config.dims.2).map fun r => lag r.si r.sj :=
    List.map_congr_left fun r hr => by rw [hW r hr, mul_one]
  rw [hmaps]
  exact stepRects_energy_sum _ _ hh hw lag

/-- The rendering loop of `start_loop` (main.rs lines 25-52): the lagged
board starts as `init_board`'s grid, the working board as zeros, and each
frame calls `board_time_step` with fresh weight matrices `Wseq n`. -/
def simulate (config : Config) (init : Grid) (Wseq : ℕ → ℕ → ℕ → PMat) :
    ℕ → Grid × Grid
  | 0 => (fun _ _ => 0, init)
  | n + 1 =>
      board_time_step (simulate config init Wseq n).1
        (simulate config init Wseq n).2 config (Wseq n)

lemma simulate_fst (config : Config) (init : Grid) (Wseq : ℕ → ℕ → ℕ → PMat) :
    ∀ n, (simulate config init Wseq n).1 = fun _ _ => 0
  | 0 => rfl
  | _ + 1 => rfl

/-- Write one cell of a grid. -/
def updateCell (g : Grid) (r c : ℕ) (v : ℚ) : Grid :=
  fun i j => if i = r ∧ j = c then v else g i j

/-- The value `(h * w * w / h) / hotspots` each hotspot receives
(main.rs line 200, after the float casts of line 199). -/
def hotspot_value (h w hotspots : ℕ) : ℚ :=
  ((h : ℚ) * w * w / h) / hotspots

/-- The rejection-sampling loop of `init_board` (main.rs lines 191-202):
at each iteration draw a coordinate `(ry, rx) = prop t`, skip it if the
cell is already nonzero, otherwise fill it and raise the quota, until the
quota reaches `hotspots`.  The source loop is unbounded; `fuel` bounds the
iterations modelled and `none` means the loop has not finished within it. -/
def init_board_go (config : Config) (prop : ℕ → ℕ × ℕ) :
    ℕ → ℕ → ℕ → Grid → Option Grid
  | 0, _, _, _ => none
  | fuel + 1, t, quota, board =>
    if quota = config.hotspots then some board
    else
      if board (prop t).1 (prop t).2 ≠ 0 then
        init_board_go config prop fuel (t + 1) quota board
      else
        init_board_go config prop fuel (t + 1) (quota + 1)
          (updateCell board (prop t).1 (prop t).2
            (hotspot_value config.dims.1 config.dims.2 config.hotspots))

/-- `init_board` (main.rs lines 175-205): an all-zero board, then the
rejection-sampling loop starting at quota 0. -/
def init_board (config : Config) (prop : ℕ → ℕ × ℕ) (fuel : ℕ) : Option Grid :=
  init_board_go config prop fuel 0 0 fun _ _ => 0

/-- `get_config` (main.rs lines 207-215): the parsed configuration is
returned as is; no field of it is validated. -/
def get_config (parsed : Config) : Config := parsed

/-- How many cells of the leading `h × w` block of a grid are nonzero. -/
def nonzeroCount (h w : ℕ) (g : Grid) : ℕ :=
  ((Finset.range h ×ˢ Finset.range w).filter fun p => g p.1 p.2 ≠ 0).card

lemma nonzeroCount_update (h w : ℕ) (g : Grid) (r c : ℕ) (v : ℚ)
    (hr : r < h) (hc : c < w) (hz : g r c = 0) (hv : v ≠ 0) :
    nonzeroCount h w (updateCell g r c v) = nonzeroCount h w g + 1 := by
  rw [nonzeroCount, nonzeroCount]
  have hset : ((Finset.range h ×ˢ Finset.range w).filter
        fun p => updateCell g r c v p.1 p.2 ≠ 0)
      = insert (r, c) ((Finset.range h ×ˢ Finset.range w).filter
        fun p => g p.1 p.2 ≠ 0) := by
    ext p
    rcases p with ⟨i, j⟩
    simp only [Finset.mem_filter, Finset.mem_insert, Finset.mem_product,
      Finset.mem_range, updateCell, Prod.mk.injEq]
    by_cases hij : i = r ∧ j = c
    · rcases hij with ⟨rfl, rfl⟩
      simp [hv, hr, hc]
    · simp only [hij, if_false]
      tauto
  rw [hset, Finset.card_insert_of_not_mem]
  simp [hz]

/-- Loop invariant of `init_board_go`: if every nonzero cell is an
in-bounds cell holding the hotspot value and the nonzero count equals the
quota, any grid the loop returns has `hotspots` nonzero cells, all equal
to the hotspot value. -/
lemma init_board_go_spec (config : Config) (prop : ℕ → ℕ × ℕ)
    (hprop : ∀ t, (prop t).1 < config.dims.1 ∧ (prop t).2 < config.dims.2)
    (hv : hotspot_value config.dims.1 config.dims.2 config.hotspots ≠ 0) :
    ∀ (fuel t quota : ℕ) (board g : Grid),
      nonzeroCount config.dims.1 config.dims.2 board = quota →
      (∀ i j, board i j ≠ 0 →
        board i j = hotspot_value config.dims.1 config.dims.2 config.hotspots
          ∧ i < config.dims.1 ∧ j < config.dims.2) →
      init_board_go config prop fuel t quota board = some g →
      nonzeroCount config.dims.1 config.dims.2 g = config.hotspots ∧
        ∀ i j, g i j ≠ 0 →
          g i j = hotspot_value config.dims.1 config.dims.2 config.hotspots := by
  intro fuel
  induction fuel with
  | zero => intro t quota board g _ _ hgo; exact absurd hgo (by simp [init_board_go])
  | succ fuel ih =>
    intro t quota board g hcount hcells hgo
    rw [init_board_go] at hgo
    by_cases hq : quota = config.hotspots
    · rw [if_pos hq] at hgo
      obtain rfl : board = g := Option.some.injEq _ _ ▸ hgo
      exact ⟨hq ▸ hcount, fun i j hij => (hcells i j hij).1⟩
    · rw [if_neg hq] at hgo
      by_cases hnz : board (prop t).1 (prop t).2 ≠ 0
      · rw [if_pos hnz] at hgo
        exact ih (t + 1) quota board g hcount hcells hgo
      · rw [if_neg hnz] at hgo
        push_neg at hnz
        refine ih (t + 1) (quota + 1) _ g ?_ ?_ hgo
        · rw [nonzeroCount_update _ _ _ _ _ _ (hprop t).1 (hprop t).2 hnz hv,
            hcount]
        · intro i j hij
          rw [updateCell] at hij ⊢
          by_cases hijc : i = (prop t).1 ∧ j = (prop t).2
          · simp only [hijc, if_true]
            exact ⟨rfl, hijc.1 ▸ (hprop t).1, hijc.2 ▸ (hprop t).2⟩
          · simp only [hijc, if_false] at hij ⊢
            exact hcells i j hij

lemma nonzeroCount_zero_grid (h w : ℕ) : nonzeroCount h w (fun _ _ => 0) = 0 := by
  rw [nonzeroCount]
  simp

/-- Pointwise nonnegativity is preserved by one slice update whose energy
and weights are nonnegative. -/
lemma addPatch_nonneg (g : Grid) (r0 c0 a b : ℕ) (e : ℚ) (p : PMat)
    (hg : ∀ i j, 0 ≤ g i j) (he : 0 ≤ e) (hp : ∀ r c, 0 ≤ p r c) :
    ∀ i j, 0 ≤ addPatch g r0 c0 a b e p i j := by
  intro i j
  rw [addPatch]
  split
  · exact add_nonneg (hg i j) (mul_nonneg he (hp _ _))
  · exact hg i j

lemma foldl_rects_nonneg (lag : Grid) (W : ℕ → ℕ → PMat)
    (hl : ∀ i j, 0 ≤ lag i j) (hW : ∀ i j r c, 0 ≤ W i j r c) :
    ∀ (L : List Rect) (g : Grid), (∀ i j, 0 ≤ g i j) →
      ∀ i j, 0 ≤ (L.foldl (applyRect lag W) g) i j := by
  intro L
  induction L with
  | nil => intro g hg; exact hg
  | cons r t ih =>
    intro g hg
    rw [List.foldl_cons]
    exact ih _ (addPatch_nonneg g _ _ _ _ _ _ hg (hl _ _) (hW _ _))

/-- Modelled from the spec: the 8-connected Moore neighborhood of the
discrete variant's `NeighborhoodResolver` — the program text of the
discrete near-duplicate is not among the repository files under src/, so
this follows §4.2 of the spec: the patch iteration covers
`[i-1,i+1] x [j-1,j+1]`, clipped at the grid edges, and the center cell is
included. -/
def mooreNeighbors (h w i j : ℕ) : List (ℕ × ℕ) :=
  (((List.range h).flatMap fun x => (List.range w).map fun y => (x, y)).filter
    fun p => i ≤ p.1 + 1 ∧ p.1 ≤ i + 1 ∧ j ≤ p.2 + 1 ∧ p.2 ≤ j + 1)

/-- Modelled from the spec: the discrete variant's integer allocation —
each of the `count - 1` weighted neighbors receives the truncation (floor)
of `energy * weight`. -/
def discreteAllocations (e : ℕ) (ws : List ℚ) : List ℕ :=
  ws.map fun t => ⌊(e : ℚ) * t⌋₊

/-- Modelled from the spec: the amounts a diffusing cell `(i, j)` with
integer energy `e` credits to its neighbors — the floor allocations paired
with the first `count - 1` neighbors, and the remainder
`e - sum_allocated` credited to the neighbor at index `r` (the one chosen
uniformly at random from the full neighbor set). -/
def discreteCredits (h w i j e : ℕ) (ws : List ℚ) (r : ℕ) :
    List ((ℕ × ℕ) × ℕ) :=
  ((mooreNeighbors h w i j).zip (discreteAllocations e ws)) ++
    [((mooreNeighbors h w i j).getD r (0, 0),
      e - (discreteAllocations e ws).sum)]

/-- C1: Energy conservation of the continuous step: for every grid with
h, w ≥ 2 and h ≤ w (so the step completes), assuming each generated weight
matrix sums to 1 over the shape of the slice it feeds, the total of the
lagged grid after `board_time_step` equals the total before the step
(exact in the rational idealization of the f64 arithmetic), and for every
step count the lagged total of the simulation equals the total right
after initialization. -/
theorem board_time_step_conserves_energy (config : Config)
    (board lagged init : Grid) (W : ℕ → ℕ → PMat) (Wseq : ℕ → ℕ → ℕ → PMat)
    (hh : 2 ≤ config.dims.1) (hw : 2 ≤ config.dims.2)
    (hhw : config.dims.1 ≤ config.dims.2)
    (hb0 : ∀ i j, board i j = 0)
    (hW : ∀ r ∈ stepRects config.dims.1 config.dims.2,
      psum r.a r.b (W r.si r.sj) = 1)
    (hWseq : ∀ n, ∀ r ∈ stepRects config.dims.1 config.dims.2,
      psum r.a r.b (Wseq n r.si r.sj) = 1) :
    gsum config.dims.1 config.dims.2 (board_time_step board lagged config W).2
      = gsum config.dims.1 config.dims.2 lagged ∧
    ∀ n, gsum config.dims.1 config.dims.2 (simulate config init Wseq n).2
      = gsum config.dims.1 config.dims.2 init := by
  constructor
  · rw [gsum_step config board lagged W hh hw hhw hW,
      gsum_eq_zero _ _ board hb0, zero_add]
  · intro n
    induction n with
    | zero => rfl
    | succ n ih =>
      show gsum _ _ (board_time_step _ _ _ _).2 = _
      rw [gsum_step config _ _ (Wseq n) hh hw hhw (hWseq n),
        gsum_eq_zero _ _ _
          (fun i j => by rw [simulate_fst config init Wseq n]),
        zero_add, ih]

/-- A 2×2 configuration with one hotspot, used as concrete input. -/
def cfg2 : Config := ⟨(2, 2), 1, 0, 0, 1⟩

/-- The uniform 2×2 weight matrix. -/
def quarterW : PMat := fun _ _ => (1 : ℚ) / 4

/-- C1 witness: on the 2×2 grid with the all-ones lagged board, constant
working board 0 and uniform corner weights, both conservation statements
hold at the concrete input. -/
theorem board_time_step_conserves_energy_witness :
    ((∀ r ∈ stepRects cfg2.dims.1 cfg2.dims.2, psum r.a r.b quarterW = 1) ∧
      gsum cfg2.dims.1 cfg2.dims.2
          (board_time_step (fun _ _ => 0) (fun _ _ => 1) cfg2
            fun _ _ => quarterW).2
        = gsum cfg2.dims.1 cfg2.dims.2 fun _ _ => 1) ∧
    ∀ n, gsum cfg2.dims.1 cfg2.dims.2
        (simulate cfg2 (fun _ _ => 1) (fun _ _ _ => quarterW) n).2
      = gsum cfg2.dims.1 cfg2.dims.2 fun _ _ => 1 := by
  have h22 : psum 2 2 quarterW = 1 := by
    rw [psum]
    simp [Finset.sum_range_succ, quarterW]
    norm_num
  have hq : ∀ r ∈ stepRects cfg2.dims.1 cfg2.dims.2,
      psum r.a r.b quarterW = 1 := by
    have hlist : stepRects cfg2.dims.1 cfg2.dims.2 = cornerRects 2 2 := by decide
    rw [hlist]
    intro r hr
    simp only [cornerRects, List.mem_cons, List.not_mem_nil, or_false] at hr
    rcases hr with rfl | rfl | rfl | rfl <;> exact h22
  have H := board_time_step_conserves_energy cfg2 (fun _ _ => 0)
    (fun _ _ => 1) (fun _ _ => 1) (fun _ _ => quarterW) (fun _ _ _ => quarterW)
    (by decide) (by decide) (by decide) (fun i j => rfl) hq (fun n => hq)
  exact ⟨⟨hq, H.1⟩, H.2⟩

/-- C6: Double-buffer protocol: after `board_time_step` returns, the new
working grid is entirely zero and the new lagged grid is the accumulated
working grid — the old working buffer with every slice update of the step
folded onto it — for every input state of the two buffers. -/
theorem board_time_step_buffer_protocol (board lag : Grid) (config : Config)
    (W : ℕ → ℕ → PMat) :
    (∀ i j, (board_time_step board lag config W).1 i j = 0) ∧
      (board_time_step board lag config W).2 =
        (stepRects config.dims.1 config.dims.2).foldl (applyRect lag W) board :=
  ⟨fun _ _ => rfl, step_snd board lag config W⟩

/-- C5: Weight normalization: for a shape `(a, b)` with `1 ≤ a*b ≤ 9`,
every entry of `probability_mat` is the corresponding draw divided by the
sum of all draws, and when the draws lie in `[0, 1)` and their sum is
positive the entries are nonnegative and sum to exactly 1; for the
trivial shape `a*b = 1` the single weight is 1. -/
theorem probability_mat_normalized (a b : ℕ) (d : PMat)
    (hab1 : 1 ≤ a * b) (hab9 : a * b ≤ 9)
    (hd : ∀ r c, 0 ≤ d r c ∧ d r c < 1) (hs : 0 < psum a b d) :
    (∀ r c, probability_mat a b d r c = d r c / psum a b d) ∧
      (∀ r c, 0 ≤ probability_mat a b d r c) ∧
      psum a b (probability_mat a b d) = 1 ∧
      (a = 1 → b = 1 → probability_mat a b d 0 0 = 1) := by
  refine ⟨fun r c => rfl, fun r c => ?_, ?_, ?_⟩
  · rw [probability_mat]
    exact div_nonneg (hd r c).1 (le_of_lt hs)
  · have hrows : ∀ i ∈ Finset.range a,
        ∑ j ∈ Finset.range b, probability_mat a b d i j
          = (∑ j ∈ Finset.range b, d i j) / psum a b d := by
      intro i _
      rw [Finset.sum_div]
      rfl
    rw [psum, Finset.sum_congr rfl hrows, ← Finset.sum_div, ← psum,
      div_self (ne_of_gt hs)]
  · rintro rfl rfl
    have h11 : psum 1 1 d = d 0 0 := by rw [psum]; simp
    rw [probability_mat, h11]
    exact div_self (ne_of_gt (h11 ▸ hs))

/-- C5 witness: the trivial 1×1 shape with the single draw 1/2 gives the
single weight 1. -/
theorem probability_mat_normalized_witness :
    (∀ r c : ℕ, (0 : ℚ) ≤ 1 / 2 ∧ (1 : ℚ) / 2 < 1) ∧
      0 < psum 1 1 (fun _ _ => (1 : ℚ) / 2) ∧
      psum 1 1 (probability_mat 1 1 fun _ _ => (1 : ℚ) / 2) = 1 ∧
      probability_mat 1 1 (fun _ _ => (1 : ℚ) / 2) 0 0 = 1 := by
  have hd : ∀ r c : ℕ, (0 : ℚ) ≤ (fun _ _ => (1 : ℚ) / 2) r c ∧
      (fun _ _ => (1 : ℚ) / 2) r c < 1 := fun _ _ => by norm_num
  have hs : 0 < psum 1 1 (fun _ _ => (1 : ℚ) / 2) := by
    rw [psum]
    norm_num
  have H := probability_mat_normalized 1 1 (fun _ _ => (1 : ℚ) / 2)
    (by norm_num) (by norm_num) hd hs
  exact ⟨fun _ _ => by norm_num, hs, H.2.2.1, H.2.2.2 rfl rfl⟩

/-- C10: Unguarded normalization: `probability_mat` divides by the
accumulated sum with no zero check, so for the all-zero draw matrix the
division-by-zero branch is taken: in the rational idealization (where the
float NaNs appear as the division-by-zero default 0) every entry becomes
0 and the entries sum to 0, not 1 — the weight-vector contract fails
exactly when no draw is positive. -/
theorem probability_mat_zero_draw_degenerate (a b : ℕ) :
    (∀ r c, probability_mat a b (fun _ _ => 0) r c = 0) ∧
      psum a b (probability_mat a b fun _ _ => 0) = 0 ∧
      psum a b (probability_mat a b fun _ _ => 0) ≠ 1 := by
  have hz : ∀ r c : ℕ, probability_mat a b (fun _ _ => 0) r c = 0 := by
    intro r c
    rw [probability_mat]
    simp
  have hsum : psum a b (probability_mat a b fun _ _ => 0) = 0 := by
    rw [psum]
    apply Finset.sum_eq_zero
    intro i _
    apply Finset.sum_eq_zero
    intro j _
    exact hz i j
  exact ⟨hz, hsum, by rw [hsum]; norm_num⟩

/-- C9: Nonnegativity invariant: weight matrices built by
`probability_mat` from nonnegative draws with positive sum have
nonnegative entries; one `board_time_step` with entrywise-nonnegative
weight matrices sends nonnegative buffers to nonnegative buffers; and
along the whole simulation from a nonnegative initial grid every cell of
both buffers stays nonnegative at every time step. -/
theorem nonnegativity_invariant (config : Config) (board lag init : Grid)
    (W : ℕ → ℕ → PMat) (Wseq : ℕ → ℕ → ℕ → PMat)
    (hb : ∀ i j, 0 ≤ board i j) (hl : ∀ i j, 0 ≤ lag i j)
    (hW : ∀ i j r c, 0 ≤ W i j r c) (hWs : ∀ n i j r c, 0 ≤ Wseq n i j r c)
    (hinit : ∀ i j, 0 ≤ init i j) :
    (∀ a b (d : PMat), (∀ r c, 0 ≤ d r c) → 0 < psum a b d →
        ∀ r c, 0 ≤ probability_mat a b d r c) ∧
      (∀ i j, 0 ≤ (board_time_step board lag config W).1 i j ∧
        0 ≤ (board_time_step board lag config W).2 i j) ∧
      ∀ n i j, 0 ≤ (simulate config init Wseq n).1 i j ∧
        0 ≤ (simulate config init Wseq n).2 i j := by
  refine ⟨?_, ?_, ?_⟩
  · intro a b d hd hs r c
    rw [probability_mat]
    exact div_nonneg (hd r c) (le_of_lt hs)
  · intro i j
    refine ⟨?_, ?_⟩
    · rw [step_fst]
    · rw [step_snd]
      exact foldl_rects_nonneg lag W hl hW _ board hb i j
  · intro n
    induction n with
    | zero => exact fun i j => ⟨le_refl 0, hinit i j⟩
    | succ n ih =>
      intro i j
      refine ⟨?_, ?_⟩
      · show (0 : ℚ) ≤ (board_time_step _ _ _ _).1 i j
        rw [step_fst]
      · show (0 : ℚ) ≤ (board_time_step _ _ _ _).2 i j
        rw [step_snd]
        exact foldl_rects_nonneg _ _ (fun i j => (ih i j).2) (hWs n) _ _
          (fun i j => (ih i j).1) i j

/-- C9 witness: the all-zero buffers and the uniform 2×2 weights on the
2×2 configuration stay nonnegative along the whole simulation. -/
theorem nonnegativity_invariant_witness :
    (∀ i j : ℕ, (0 : ℚ) ≤ (0 : ℚ)) ∧
      ∀ n i j, 0 ≤ (simulate cfg2 (fun _ _ => 0) (fun _ _ _ => quarterW) n).1 i j ∧
        0 ≤ (simulate cfg2 (fun _ _ => 0) (fun _ _ _ => quarterW) n).2 i j := by
  have hz : ∀ i j : ℕ, (0 : ℚ) ≤ ((fun _ _ => (0 : ℚ)) : Grid) i j :=
    fun _ _ => le_refl 0
  have hqW : ∀ i j r c : ℕ, 0 ≤ ((fun _ _ => quarterW) : ℕ → ℕ → PMat) i j r c :=
    fun _ _ _ _ => by norm_num [quarterW]
  have H := nonnegativity_invariant cfg2 (fun _ _ => 0) (fun _ _ => 0)
    (fun _ _ => 0) (fun _ _ => quarterW) (fun _ _ _ => quarterW)
    hz hz hqW (fun n => hqW) hz
  exact ⟨fun _ _ => le_refl 0, H.2.2⟩

/-- Every slice `board_time_step` takes with dimensions `(h, w)` stays
inside the `h × w` boards (no patch exceeds an axis, which is also where
a usize underflow of `w - 2` or `h - 2` would surface as an out-of-bounds
slice), and every energy read is of an in-bounds cell. -/
def stepInBounds (h w : ℕ) : Prop :=
  ∀ r ∈ stepRects h w, (r.r0 + r.a ≤ h ∧ r.c0 + r.b ≤ w) ∧ r.si < h ∧ r.sj < w

instance (h w : ℕ) : Decidable (stepInBounds h w) := by
  unfold stepInBounds
  infer_instance

/-- C3 (amended): panic-freedom of the step holds for `2 ≤ h ≤ w`, not
for every positive pre-validated configuration: under `2 ≤ h ≤ w` every
corner, border and interior slice of `board_time_step` — the rightmost
`h-2..h` column slice of line 108 included — is within the bounds of the
`h × w` arrays and no usize subtraction underflows. -/
theorem step_slices_in_bounds (h w : ℕ) (hh : 2 ≤ h) (hw : 2 ≤ w)
    (hhw : h ≤ w) : stepInBounds h w :=
  stepRects_bounds h w hh hw hhw

/-- C3 witness: the 3×4 grid is in bounds. -/
theorem step_slices_in_bounds_witness : stepInBounds 3 4 :=
  step_slices_in_bounds 3 4 (by decide) (by decide) (by decide)

/-- C3 counterexample: the 1×1 configuration has positive dimensions and
admits `hotspots = 1 ≤ h*w`, yet the step's very first corner slice
`0..2` already exceeds both axes of the 1×1 arrays (and on actual
hardware `w - 2` underflows), so the claim fails at a pre-validated
positive configuration. -/
theorem step_slices_unsafe_one_by_one : ¬ stepInBounds 1 1 := by decide

/-- A 3×4 configuration (`h = 3 ≠ 4 = w`) with one hotspot. -/
def cfg34 : Config := ⟨(3, 4), 1, 0, 0, 1⟩

/-- A lagged grid whose only energy, 6 units, sits at the right-column
interior-row cell (1, 3) of the 3×4 grid. -/
def rightLag : Grid := fun i j => if i = 1 ∧ j = 3 then 6 else 0

/-- Weight matrices summing to 1 for the shape each cell of a 3×4 grid
feeds: 1/4 entries at the corners, 1/6 on the borders, 1/9 in the
interior. -/
def uniformW34 : ℕ → ℕ → PMat := fun i j =>
  if (i = 0 ∨ i = 2) ∧ (j = 0 ∨ j = 3) then fun _ _ => (1 : ℚ) / 4
  else if i = 0 ∨ i = 2 then fun _ _ => (1 : ℚ) / 6
  else if j = 0 ∨ j = 3 then fun _ _ => (1 : ℚ) / 6
  else fun _ _ => (1 : ℚ) / 9

/-- C2: on the 3×4 grid the 6 units at the right-column cell (1, 3) are
spread with uniform 3×2 weights into columns `h-2..h-1 = 1..2` — the
anchor of main.rs line 108 uses `h` where `w` is intended — not into the
claimed columns `w-2..w-1 = 2..3`: cell (1, 1), outside the claimed
patch, receives one unit, while cell (0, 3), inside the claimed patch,
receives nothing. -/
theorem right_border_patch_anchored_at_h :
    (board_time_step (fun _ _ => 0) rightLag cfg34 uniformW34).2 1 1 = 1 ∧
      (board_time_step (fun _ _ => 0) rightLag cfg34 uniformW34).2 0 3 = 0 := by
  norm_num [board_time_step, cfg34, cornerPass, topPass, botPass, rowPass,
    rightLag, uniformW34, addPatch, List.range'_succ]

/-- C4: Hotspot initialization postcondition: whenever `init_board`
returns within its fuel on a configuration with positive dimensions and
`0 < hotspots ≤ h*w`, drawing in-bounds coordinates, the returned grid
has exactly `hotspots` nonzero cells, each equal to the source's literal
`(h*w*w/h)/hotspots`, which in exact arithmetic is `w*w/hotspots`; all
remaining cells are zero (they are the cells `nonzeroCount` does not
count). -/
theorem init_board_hotspot_postcondition (config : Config)
    (prop : ℕ → ℕ × ℕ) (fuel : ℕ) (g : Grid)
    (hh : 0 < config.dims.1) (hw : 0 < config.dims.2)
    (hk : 0 < config.hotspots)
    (hcap : config.hotspots ≤ config.dims.1 * config.dims.2)
    (hprop : ∀ t, (prop t).1 < config.dims.1 ∧ (prop t).2 < config.dims.2)
    (hret : init_board config prop fuel = some g) :
    nonzeroCount config.dims.1 config.dims.2 g = config.hotspots ∧
      (∀ i j, g i j ≠ 0 →
        g i j = hotspot_value config.dims.1 config.dims.2 config.hotspots) ∧
      hotspot_value config.dims.1 config.dims.2 config.hotspots =
        (config.dims.2 : ℚ) * config.dims.2 / config.hotspots := by
  have hh' : (0 : ℚ) < config.dims.1 := by exact_mod_cast hh
  have hw' : (0 : ℚ) < config.dims.2 := by exact_mod_cast hw
  have hk' : (0 : ℚ) < config.hotspots := by exact_mod_cast hk
  have hveq : hotspot_value config.dims.1 config.dims.2 config.hotspots =
      (config.dims.2 : ℚ) * config.dims.2 / config.hotspots := by
    rw [hotspot_value]
    field_simp
    ring
  have hvpos : 0 < hotspot_value config.dims.1 config.dims.2 config.hotspots := by
    rw [hveq]
    exact div_pos (mul_pos hw' hw') hk'
  obtain ⟨h1, h2⟩ := init_board_go_spec config prop hprop (ne_of_gt hvpos)
    fuel 0 0 (fun _ _ => 0) g (nonzeroCount_zero_grid _ _)
    (fun i j h0 => absurd rfl h0) hret
  exact ⟨h1, h2, hveq⟩

/-- A 1×1 configuration with one hotspot, used as concrete input. -/
def cfg11 : Config := ⟨(1, 1), 1, 0, 0, 1⟩

/-- The grid `init_board` produces on `cfg11` when the first proposal is
the cell (0, 0). -/
def hotspotGrid : Grid := updateCell (fun _ _ => 0) 0 0 (hotspot_value 1 1 1)

/-- C4 witness: on the 1×1 configuration with proposal stream (0, 0) and
fuel 2 the loop returns, and the returned grid has exactly one nonzero
cell. -/
theorem init_board_hotspot_postcondition_witness :
    init_board cfg11 (fun _ => (0, 0)) 2 = some hotspotGrid ∧
      nonzeroCount cfg11.dims.1 cfg11.dims.2 hotspotGrid = cfg11.hotspots := by
  have hret : init_board cfg11 (fun _ => (0, 0)) 2 = some hotspotGrid := rfl
  exact ⟨hret, (init_board_hotspot_postcondition cfg11 (fun _ => (0, 0)) 2
    hotspotGrid (by decide) (by decide) (by decide) (by decide)
    (fun t => ⟨Nat.zero_lt_one, Nat.zero_lt_one⟩) hret).1⟩

/-- A malformed configuration: 1×1 dimensions but 2 hotspots. -/
def cfgOverflow : Config := ⟨(1, 1), 2, 0, 0, 1⟩

/-- C7: there is no fail-fast path for a malformed configuration:
`get_config` returns the parsed record with `hotspots = 2 > 1 = h*w`
unvalidated, and `init_board`'s rejection-sampling loop never returns on
it — for every fuel bound the loop is still running (the quota can never
pass 1 on a 1×1 grid, so it never reaches 2). -/
theorem no_validation_hotspot_overflow_diverges :
    get_config cfgOverflow = cfgOverflow ∧
      ∀ fuel, init_board cfgOverflow (fun _ => (0, 0)) fuel = none := by
  refine ⟨rfl, ?_⟩
  have hv : hotspot_value cfgOverflow.dims.1 cfgOverflow.dims.2
      cfgOverflow.hotspots ≠ 0 := by
    norm_num [cfgOverflow, hotspot_value]
  have key : ∀ fuel t quota (board : Grid), quota ≤ 1 →
      (quota = 1 → board 0 0 ≠ 0) →
      init_board_go cfgOverflow (fun _ => (0, 0)) fuel t quota board = none := by
    intro fuel
    induction fuel with
    | zero => intro t quota board _ _; rfl
    | succ fuel ih =>
      intro t quota board hq hb
      rw [init_board_go,
        if_neg (by simp only [cfgOverflow]; omega : ¬ quota = cfgOverflow.hotspots)]
      by_cases hnz : board 0 0 ≠ 0
      · rw [if_pos hnz]
        exact ih (t + 1) quota board hq hb
      · rw [if_neg hnz]
        push_neg at hnz
        have hq0 : quota = 0 := by
          by_cases h1 : quota = 1
          · exact absurd hnz (hb h1)
          · omega
        apply ih (t + 1) (quota + 1)
        · omega
        · intro _
          show updateCell board 0 0 _ 0 0 ≠ 0
          rw [updateCell, if_pos ⟨rfl, rfl⟩]
          exact hv
  intro fuel
  exact key fuel 0 0 (fun _ _ => 0) (by omega) fun h01 => absurd h01 zero_ne_one

/-- C8: per-diffusing-cell conservation of the discrete variant (modelled
from the spec: the discrete near-duplicate program is not among the
repository files under src/): for a cell selected to diffuse, with
nonnegative weights over `count - 1` of its `count` in-bounds Moore
neighbors summing to 1, the floor allocations plus the remainder credited
to the randomly chosen neighbor sum to exactly the cell's original
integer energy — no units are lost or gained. -/
theorem discrete_cell_conservation (h w i j e : ℕ) (ws : List ℚ) (r : ℕ)
    (hlen : ws.length + 1 = (mooreNeighbors h w i j).length)
    (hnn : ∀ x ∈ ws, 0 ≤ x) (hsum : ws.sum = 1) :
    ((discreteCredits h w i j e ws r).map Prod.snd).sum = e := by
  have halloc : (discreteAllocations e ws).sum ≤ e := by
    have hcast : ((discreteAllocations e ws).sum : ℚ) ≤ (e : ℚ) := by
      rw [Nat.cast_list_sum, discreteAllocations, List.map_map]
      have hle : ((ws.map fun t => ((⌊(e : ℚ) * t⌋₊ : ℕ) : ℚ)).sum) ≤
          (ws.map fun t => (e : ℚ) * t).sum := by
        apply List.sum_le_sum
        intro t ht
        exact Nat.floor_le (mul_nonneg (Nat.cast_nonneg e) (hnn t ht))
      have hcomp : (Nat.cast ∘ fun t => ⌊(e : ℚ) * t⌋₊) =
          fun t : ℚ => ((⌊(e : ℚ) * t⌋₊ : ℕ) : ℚ) := rfl
      rw [hcomp]
      calc ((ws.map fun t : ℚ => ((⌊(e : ℚ) * t⌋₊ : ℕ) : ℚ)).sum)
          ≤ (ws.map fun t => (e : ℚ) * t).sum := hle
        _ = (e : ℚ) * ws.sum := by simpa using List.sum_map_mul_left ws id (e : ℚ)
        _ = (e : ℚ) := by rw [hsum, mul_one]
    exact_mod_cast hcast
  have hlen' : (discreteAllocations e ws).length ≤
      (mooreNeighbors h w i j).length := by
    rw [discreteAllocations, List.length_map]
    omega
  rw [discreteCredits, List.map_append, List.sum_append,
    List.map_snd_zip _ _ hlen']
  simp only [List.map_cons, List.map_nil, List.sum_cons, List.sum_nil, add_zero]
  omega

/-- C8 witness: the cell (0, 0) of a 2×2 grid has 4 Moore neighbors
(itself included); with weights 1/2, 1/4, 1/4 over three of them and the
remainder going to neighbor 0, the credits of 5 units of energy sum to
exactly 5. -/
theorem discrete_cell_conservation_witness :
    (List.length [(1 : ℚ) / 2, 1 / 4, 1 / 4] + 1 =
        (mooreNeighbors 2 2 0 0).length) ∧
      ((discreteCredits 2 2 0 0 5 [(1 : ℚ) / 2, 1 / 4, 1 / 4] 0).map
        Prod.snd).sum = 5 := by
  have hlen : List.length [(1 : ℚ) / 2, 1 / 4, 1 / 4] + 1 =
      (mooreNeighbors 2 2 0 0).length := by
    have : (mooreNeighbors 2 2 0 0).length = 4 := by decide
    rw [this]
    rfl
  have hnn : ∀ x ∈ [(1 : ℚ) / 2, 1 / 4, 1 / 4], 0 ≤ x := by
    intro x hx
    fin_cases hx <;> norm_num
  have hsum : ([(1 : ℚ) / 2, 1 / 4, 1 / 4]).sum = 1 := by
    simp [List.sum_cons]
    norm_num
  exact ⟨hlen,
    discrete_cell_conservation 2 2 0 0 5 [(1 : ℚ) / 2, 1 / 4, 1 / 4] 0
      hlen hnn hsum⟩

end Entropy
